import Mathlib

/-!
Conversation-history trimming of the chat server (`main.go`).

A shallow embedding of the `/chat` turn of `main.go`:

* `countTokens` (`len(strings.Fields(text))`),
* `trimHistoryForNewMessage` (the eviction loop over the global `conversationHistory`),
* the `/chat` handler, with the two HTTP collaborators `getFileContent` and
  `getChatGPTResponse` taken as parameters.

The global `conversationHistory` is passed explicitly, and the constant
`maxTokens` is a parameter `budget` of the operations (the program runs them at
`budget = maxTokens`). Go `int` arithmetic is 64-bit two's complement and is
modelled on `Int` with an explicit wrap-around.
-/

namespace ChatHistory

/-! ## Data model -/

/-- The Go struct `Message` (`main.go`, lines 18-21). -/
structure Message where
  Role : String
  Content : String
  deriving DecidableEq, Repr

/-- The Go constant `maxTokens` (`main.go`, line 26). -/
def maxTokens : Int := 128000

/-! ## Token estimate -/

/-- Go's `unicode.IsSpace`: in Latin-1 the runes `\t \n \v \f \r`, space, U+0085 and
U+00A0; beyond Latin-1 the runes with the `White_Space` property. -/
def isSpace (r : Char) : Bool :=
  let n := r.toNat
  (0x09 ≤ n && n ≤ 0x0D) || n == 0x20 || n == 0x85 || n == 0xA0 ||
  n == 0x1680 || (0x2000 ≤ n && n ≤ 0x200A) || n == 0x2028 || n == 0x2029 ||
  n == 0x202F || n == 0x205F || n == 0x3000

/-- The scanning loop of Go's `strings.FieldsFunc`, over the runes of the text. The
second argument is the field being read (`none` between fields, which is `start < 0` in
Go), kept in reverse; a field is emitted when a space rune or the end of the text
closes it. -/
def fieldsLoop : List Char → Option (List Char) → List (List Char)
  | [], none => []
  | [], some w => [w.reverse]
  | r :: rest, none =>
      if isSpace r then fieldsLoop rest none else fieldsLoop rest (some [r])
  | r :: rest, some w =>
      if isSpace r then w.reverse :: fieldsLoop rest none
      else fieldsLoop rest (some (r :: w))

/-- Go's `strings.Fields`: the text split around runs of white space, as a list of
fields (each a list of runes). -/
def fields (text : String) : List (List Char) :=
  fieldsLoop text.data none

/-- The function `countTokens` (`main.go`, lines 281-285): `len(strings.Fields(text))`. -/
def countTokens (text : String) : Int :=
  ((fields text).length : Int)

/-! ## Go `int` arithmetic -/

/-- The largest Go `int` (64-bit). -/
def maxInt : Int := 9223372036854775807

/-- Reduction of an integer to the 64-bit two's complement range, as done by every Go
`int` addition and subtraction. -/
def wrapInt (x : Int) : Int :=
  (x + 9223372036854775808) % 18446744073709551616 - 9223372036854775808

/-! ## Trimming -/

/-- The first loop of `trimHistoryForNewMessage` (lines 265-268): the running
`currentTokens` after adding the cost of every message of the history. -/
def sumTokens : Int → List Message → Int
  | currentTokens, [] => currentTokens
  | currentTokens, msg :: rest =>
      sumTokens (wrapInt (currentTokens + countTokens msg.Content)) rest

/-- The eviction loop of `trimHistoryForNewMessage` (lines 273-276): while the history
is non-empty and `currentTokens + newMessageTokens > budget`, subtract the cost of the
head and drop it. -/
def trimLoop (budget newMessageTokens : Int) : Int → List Message → List Message
  | _, [] => []
  | currentTokens, msg :: rest =>
      if wrapInt (currentTokens + newMessageTokens) > budget then
        trimLoop budget newMessageTokens
          (wrapInt (currentTokens - countTokens msg.Content)) rest
      else msg :: rest

/-- The function `trimHistoryForNewMessage` (`main.go`, lines 263-278), returning the
new value of `conversationHistory`. -/
def trimHistoryForNewMessage (budget newMessageTokens : Int)
    (conversationHistory : List Message) : List Message :=
  let currentTokens := sumTokens 0 conversationHistory
  if wrapInt (currentTokens + newMessageTokens) > budget then
    trimLoop budget newMessageTokens currentTokens conversationHistory
  else conversationHistory

/-- The total estimated cost of a history as a mathematical integer: the sum of
`countTokens` over the contents. -/
def historyCost (history : List Message) : Int :=
  (history.map (fun msg => countTokens msg.Content)).sum

/-! ## Specification-side reading of the token estimate -/

/-- The white-space delimited words of a text, in the words of the specification: the
text is cut at every white-space rune and the empty pieces are discarded. -/
def wordsOf (text : String) : List (List Char) :=
  (text.data.splitOnP isSpace).filter (fun w => !w.isEmpty)

/-- The number of maximal runs of non-white-space runes of a text, counted by their
first positions: position `i` starts a run when the rune at `i` is not white space and
either `i = 0` or the rune at `i - 1` is white space. -/
def maximalRuns (text : String) : Nat :=
  (List.range text.data.length).countP (fun i =>
    !isSpace (text.data.getD i ' ') &&
      (i == 0 || isSpace (text.data.getD (i - 1) ' ')))

/-- The run-start count behind `maximalRuns`, over a list of runes that follows a rune
whose white-space status is `prevSpace` (`true` at the start of the text). -/
def runStartsFrom (prevSpace : Bool) (l : List Char) : Nat :=
  (List.range l.length).countP (fun i =>
    !isSpace (l.getD i ' ') &&
      (if i = 0 then prevSpace else isSpace (l.getD (i - 1) ' ')))

/-! ## The `/chat` turn -/

/-- The JSON body bound by the `/chat` handler (`main.go`, lines 60-63). -/
structure RequestBody where
  Prompt : String
  FileID : String
  deriving DecidableEq, Repr

/-- The JSON payload written by `c.JSON`: either `{"error": msg}` or
`{"response": text}`. -/
inductive Payload where
  | error (msg : String)
  | response (text : String)
  deriving DecidableEq, Repr

/-- What one `/chat` turn leaves behind: the HTTP status and payload sent to the
caller, the history handed to `getChatGPTResponse` (`none` when it was not called), and
the value of `conversationHistory` after the turn. -/
structure TurnResult where
  status : Nat
  body : Payload
  dispatched : Option (List Message)
  conversationHistory : List Message
  deriving DecidableEq, Repr

/-- Lines 70-79 of the handler: when `file_id` is non-empty, fetch the file and
append its content as a `user` message; a failed fetch ends the turn. -/
def fileStep (getFileContent : String → Except String String)
    (requestBody : RequestBody) (conversationHistory : List Message) :
    Except String (List Message) :=
  if requestBody.FileID ≠ "" then
    match getFileContent requestBody.FileID with
    | .error err => .error err
    | .ok fileContent => .ok (conversationHistory ++ [⟨"user", fileContent⟩])
  else .ok conversationHistory

/-- Lines 81-90 of the handler: when the prompt is non-empty, trim the history for its
cost and append it as a `user` message. -/
def promptStep (budget : Int) (requestBody : RequestBody)
    (conversationHistory : List Message) : List Message :=
  if requestBody.Prompt ≠ "" then
    let newMessageTokens := countTokens requestBody.Prompt
    trimHistoryForNewMessage budget newMessageTokens conversationHistory
      ++ [⟨"user", requestBody.Prompt⟩]
  else conversationHistory

/-- The `/chat` handler (`main.go`, lines 59-103) as one sequential turn. `bound` is
the outcome of `c.BindJSON`; the two collaborators are the HTTP calls
`getFileContent` and `getChatGPTResponse`, each returning a value or an error text. -/
def chatHandler (budget : Int)
    (getFileContent : String → Except String String)
    (getChatGPTResponse : List Message → Except String String)
    (bound : Except String RequestBody)
    (conversationHistory : List Message) : TurnResult :=
  match bound with
  | .error err => ⟨400, .error err, none, conversationHistory⟩
  | .ok requestBody =>
    match fileStep getFileContent requestBody conversationHistory with
    | .error err => ⟨500, .error err, none, conversationHistory⟩
    | .ok afterFile =>
      let history := promptStep budget requestBody afterFile
      match getChatGPTResponse history with
      | .error err => ⟨500, .error err, some history, history⟩
      | .ok response =>
        ⟨200, .response response, some history,
          history ++ [⟨"assistant", response⟩]⟩

/-! ## Arithmetic lemmas -/

theorem countTokens_nonneg (text : String) : 0 ≤ countTokens text := by
  unfold countTokens
  exact Int.natCast_nonneg _

theorem historyCost_nil : historyCost [] = 0 := rfl

theorem historyCost_cons (msg : Message) (rest : List Message) :
    historyCost (msg :: rest) = countTokens msg.Content + historyCost rest := by
  simp [historyCost]

theorem historyCost_append (a b : List Message) :
    historyCost (a ++ b) = historyCost a + historyCost b := by
  simp [historyCost]

theorem historyCost_nonneg (history : List Message) : 0 ≤ historyCost history := by
  induction history with
  | nil => simp [historyCost]
  | cons msg rest ih =>
    rw [historyCost_cons]
    have := countTokens_nonneg msg.Content
    omega

theorem wrapInt_of_inRange (x : Int) (h0 : 0 ≤ x) (h1 : x ≤ maxInt) : wrapInt x = x := by
  unfold wrapInt
  unfold maxInt at h1
  omega

theorem sumTokens_eq (history : List Message) :
    ∀ cur : Int, 0 ≤ cur → cur + historyCost history ≤ maxInt →
      sumTokens cur history = cur + historyCost history := by
  induction history with
  | nil => intro cur _ _; simp [sumTokens, historyCost]
  | cons msg rest ih =>
    intro cur h0 h1
    rw [historyCost_cons] at h1
    have hc := countTokens_nonneg msg.Content
    have hr := historyCost_nonneg rest
    have hw : wrapInt (cur + countTokens msg.Content) = cur + countTokens msg.Content :=
      wrapInt_of_inRange _ (by omega) (by omega)
    simp only [sumTokens, hw, historyCost_cons]
    rw [ih _ (by omega) (by omega)]
    omega

/-- The range assumption of the cost bounds cannot be dropped: at a new-message cost of
`maxInt` the sum `currentTokens + newMessageTokens` wraps to a negative number, the
test against the budget fails and nothing is evicted. No call of the handler reaches
this, the cost it passes being the word count of a string held in memory. -/
theorem trim_wraps_beyond_int_range :
    trimHistoryForNewMessage maxTokens maxInt [⟨"user", "a"⟩] = [⟨"user", "a"⟩] := by
  decide

/-! ## The eviction loop -/

/-- Whatever the running total, the loop returns the history with some first
messages dropped. -/
theorem trimLoop_eq_drop (budget n : Int) (history : List Message) :
    ∀ cur : Int, ∃ k, k ≤ history.length ∧
      trimLoop budget n cur history = history.drop k := by
  induction history with
  | nil => intro cur; exact ⟨0, by simp, by simp [trimLoop]⟩
  | cons msg rest ih =>
    intro cur
    by_cases hc : wrapInt (cur + n) > budget
    · obtain ⟨k, hk, he⟩ := ih (wrapInt (cur - countTokens msg.Content))
      exact ⟨k + 1, by simpa using hk, by simp [trimLoop, hc, he]⟩
    · exact ⟨0, by simp, by simp [trimLoop, hc]⟩

/-- In the absence of overflow the loop, started with the exact cost of the history,
drops the least number of first messages after which the rest and the new message fit
the budget, and everything when no such number exists. -/
theorem trimLoop_least (budget n : Int) (hn : 0 ≤ n) (history : List Message) :
    historyCost history + n ≤ maxInt →
    ∃ k, k ≤ history.length ∧
      trimLoop budget n (historyCost history) history = history.drop k ∧
      (∀ j, j < k → budget < historyCost (history.drop j) + n) ∧
      (k = history.length ∨ historyCost (history.drop k) + n ≤ budget) := by
  induction history with
  | nil => intro _; exact ⟨0, by simp, by simp [trimLoop], by simp, by simp⟩
  | cons msg rest ih =>
    intro hr
    rw [historyCost_cons] at hr
    have hc := countTokens_nonneg msg.Content
    have hrest := historyCost_nonneg rest
    have hw : wrapInt (historyCost (msg :: rest) + n) = historyCost (msg :: rest) + n :=
      wrapInt_of_inRange _ (by rw [historyCost_cons]; omega) (by rw [historyCost_cons]; omega)
    have hs : wrapInt (historyCost (msg :: rest) - countTokens msg.Content)
        = historyCost rest := by
      rw [historyCost_cons]
      rw [wrapInt_of_inRange _ (by omega) (by omega)]
      omega
    by_cases hgt : historyCost (msg :: rest) + n > budget
    · obtain ⟨k, hk, he, hlt, hfit⟩ := ih (by omega)
      refine ⟨k + 1, by simpa using hk, ?_, ?_, ?_⟩
      · simp only [trimLoop, hw, hs, if_pos hgt, List.drop_succ_cons]
        exact he
      · intro j hj
        cases j with
        | zero => simpa using hgt
        | succ j => simpa using hlt j (by omega)
      · rcases hfit with h | h
        · left; simp [h]
        · right; simpa using h
    · refine ⟨0, by simp, ?_, by simp, ?_⟩
      · simp only [trimLoop, hw, if_neg hgt, List.drop_zero]
      · right; simpa using not_lt.mp hgt

/-- The whole function in the absence of overflow: least eviction count. -/
theorem trim_least (budget n : Int) (hn : 0 ≤ n) (history : List Message)
    (hr : historyCost history + n ≤ maxInt) :
    ∃ k, k ≤ history.length ∧
      trimHistoryForNewMessage budget n history = history.drop k ∧
      (∀ j, j < k → budget < historyCost (history.drop j) + n) ∧
      (k = history.length ∨ historyCost (history.drop k) + n ≤ budget) := by
  have hh := historyCost_nonneg history
  have hsum : sumTokens 0 history = historyCost history := by
    rw [sumTokens_eq history 0 (le_refl 0) (by omega)]; omega
  have hw : wrapInt (historyCost history + n) = historyCost history + n :=
    wrapInt_of_inRange _ (by omega) hr
  by_cases hgt : historyCost history + n > budget
  · obtain ⟨k, hk, he, hlt, hfit⟩ := trimLoop_least budget n hn history hr
    refine ⟨k, hk, ?_, hlt, hfit⟩
    simp only [trimHistoryForNewMessage, hsum, hw, if_pos hgt]
    exact he
  · refine ⟨0, by simp, ?_, by simp, ?_⟩
    · simp only [trimHistoryForNewMessage, hsum, hw, if_neg hgt, List.drop_zero]
    · right; simpa using not_lt.mp hgt

/-! ## The token estimate -/

theorem fieldsLoop_eq_split (l : List Char) :
    (∀ w : List Char, w ≠ [] →
      fieldsLoop l (some w) = (List.splitOnP.go isSpace l w).filter (fun w => !w.isEmpty)) ∧
    fieldsLoop l none = (List.splitOnP.go isSpace l []).filter (fun w => !w.isEmpty) := by
  induction l with
  | nil =>
    refine ⟨?_, by simp [fieldsLoop, List.splitOnP.go]⟩
    intro w hw
    have : w.reverse.isEmpty = false := by
      cases w with
      | nil => exact absurd rfl hw
      | cons a t => simp [List.isEmpty_iff]
    simp [fieldsLoop, List.splitOnP.go, List.filter_cons, this]
  | cons r rest ih =>
    obtain ⟨ihSome, ihNone⟩ := ih
    refine ⟨?_, ?_⟩
    · intro w hw
      have hne : w.reverse.isEmpty = false := by
        cases w with
        | nil => exact absurd rfl hw
        | cons a t => simp [List.isEmpty_iff]
      by_cases hs : isSpace r = true
      · simp [fieldsLoop, List.splitOnP.go, hs, List.filter_cons, hne, ihNone]
      · simp [fieldsLoop, List.splitOnP.go, hs, ihSome (r :: w) (by simp)]
    · by_cases hs : isSpace r = true
      · simp [fieldsLoop, List.splitOnP.go, hs, List.filter_cons, ihNone]
      · simp [fieldsLoop, List.splitOnP.go, hs, ihSome [r] (by simp)]

theorem fields_eq_wordsOf (text : String) : fields text = wordsOf text := by
  unfold fields wordsOf List.splitOnP
  exact (fieldsLoop_eq_split text.data).2

theorem runStartsFrom_nil (b : Bool) : runStartsFrom b [] = 0 := by
  simp [runStartsFrom]

theorem runStartsFrom_cons (b : Bool) (c : Char) (l : List Char) :
    runStartsFrom b (c :: l)
      = (if (!isSpace c && b) = true then 1 else 0) + runStartsFrom (isSpace c) l := by
  unfold runStartsFrom
  rw [List.length_cons, List.range_succ_eq_map, List.countP_cons, List.countP_map]
  have hcongr : List.countP
      ((fun i => !isSpace ((c :: l).getD i ' ') &&
        (if i = 0 then b else isSpace ((c :: l).getD (i - 1) ' '))) ∘ Nat.succ)
      (List.range l.length)
      = List.countP (fun i => !isSpace (l.getD i ' ') &&
        (if i = 0 then isSpace c else isSpace (l.getD (i - 1) ' ')))
      (List.range l.length) := by
    apply List.countP_congr
    intro i _
    cases i with
    | zero => simp
    | succ j => simp
  rw [hcongr]
  simp only [List.getD_cons_zero, if_true]
  omega

theorem fieldsLoop_length (l : List Char) :
    (∀ w : List Char, (fieldsLoop l (some w)).length = 1 + runStartsFrom false l) ∧
    (fieldsLoop l none).length = runStartsFrom true l := by
  induction l with
  | nil => simp [fieldsLoop, runStartsFrom_nil]
  | cons r rest ih =>
    obtain ⟨ihSome, ihNone⟩ := ih
    refine ⟨?_, ?_⟩
    · intro w
      by_cases hs : isSpace r = true
      · simp [fieldsLoop, runStartsFrom_cons, hs, ihNone, Nat.add_comm]
      · simp [fieldsLoop, runStartsFrom_cons, hs, ihSome]
    · by_cases hs : isSpace r = true
      · simp [fieldsLoop, runStartsFrom_cons, hs, ihNone]
      · simp [fieldsLoop, runStartsFrom_cons, hs, ihSome]

theorem maximalRuns_eq (text : String) : maximalRuns text = runStartsFrom true text.data := by
  unfold maximalRuns runStartsFrom
  apply List.countP_congr
  intro i _
  by_cases hi : i = 0 <;> simp [hi]

theorem fieldsLoop_allSpace (l : List Char) (h : ∀ r ∈ l, isSpace r = true) :
    fieldsLoop l none = [] := by
  induction l with
  | nil => simp [fieldsLoop]
  | cons r rest ih =>
    have hr : isSpace r = true := h r (by simp)
    simp only [fieldsLoop, hr, if_true]
    exact ih (fun x hx => h x (by simp [hx]))

/-! ## The handler, step by step -/

theorem fileStep_ok_cases (getFileContent : String → Except String String)
    (requestBody : RequestBody) (history afterFile : List Message)
    (h : fileStep getFileContent requestBody history = .ok afterFile) :
    (requestBody.FileID = "" ∧ afterFile = history) ∨
    (requestBody.FileID ≠ "" ∧ ∃ fileContent,
      getFileContent requestBody.FileID = .ok fileContent ∧
      afterFile = history ++ [⟨"user", fileContent⟩]) := by
  unfold fileStep at h
  by_cases hid : requestBody.FileID = ""
  · left
    simp only [hid, ne_eq, not_true_eq_false, if_false] at h
    exact ⟨hid, (Except.ok.inj h).symm⟩
  · right
    simp only [ne_eq, hid, not_false_eq_true, if_true] at h
    cases hg : getFileContent requestBody.FileID with
    | error err => rw [hg] at h; cases h
    | ok fileContent =>
      rw [hg] at h
      exact ⟨hid, fileContent, rfl, (Except.ok.inj h).symm⟩

theorem chatHandler_dispatched (budget : Int)
    (getFileContent : String → Except String String)
    (getChatGPTResponse : List Message → Except String String)
    (requestBody : RequestBody) (history afterFile : List Message)
    (h : fileStep getFileContent requestBody history = .ok afterFile) :
    (chatHandler budget getFileContent getChatGPTResponse (.ok requestBody) history).dispatched
      = some (promptStep budget requestBody afterFile) := by
  simp only [chatHandler, h]
  cases getChatGPTResponse (promptStep budget requestBody afterFile) <;> rfl

theorem historyCost_replicate (k : Nat) (msg : Message) :
    historyCost (List.replicate k msg) = k * countTokens msg.Content := by
  induction k with
  | zero => simp [historyCost]
  | succ k ih =>
    rw [List.replicate_succ, historyCost_cons, ih]
    push_cast
    ring

theorem historyCost_replicate_append (k : Nat) :
    historyCost (List.replicate k ⟨"assistant", "a"⟩ ++ [⟨"user", "b"⟩]) = (k : Int) + 1 := by
  rw [historyCost_append, historyCost_replicate]
  have h1 : countTokens "a" = 1 := by decide
  have h2 : historyCost [⟨"user", "b"⟩] = 1 := by decide
  rw [h1, h2]
  ring

theorem fileStep_fetched (getFileContent : String → Except String String)
    (requestBody : RequestBody) (history : List Message) (c : String)
    (hid : requestBody.FileID ≠ "")
    (hok : getFileContent requestBody.FileID = .ok c) :
    fileStep getFileContent requestBody history = .ok (history ++ [⟨"user", c⟩]) := by
  simp only [fileStep, ne_eq, hid, not_false_eq_true, if_true, hok]

theorem chatHandler_file_only (budget : Int)
    (getFileContent : String → Except String String)
    (getChatGPTResponse : List Message → Except String String)
    (requestBody : RequestBody) (history : List Message) (c : String)
    (hid : requestBody.FileID ≠ "")
    (hok : getFileContent requestBody.FileID = .ok c)
    (hp : requestBody.Prompt = "") :
    (chatHandler budget getFileContent getChatGPTResponse (.ok requestBody) history).dispatched
      = some (history ++ [⟨"user", c⟩]) := by
  rw [chatHandler_dispatched budget getFileContent getChatGPTResponse requestBody history _
    (fileStep_fetched getFileContent requestBody history c hid hok)]
  simp only [promptStep, hp, ne_eq, not_true_eq_false, if_false]

/-! ## The claims -/

/-- C1. Bounded cost after trimming: for every budget, every history and every
new-message cost `n ≥ 0` whose sum with the cost of the history is a Go `int`, after
`trimHistoryForNewMessage` either the cost of the remaining history plus `n` is at most
the budget, or the remaining history is empty. -/
theorem trim_bounded_cost (budget n : Int) (history : List Message)
    (hn : 0 ≤ n) (hr : historyCost history + n ≤ maxInt) :
    historyCost (trimHistoryForNewMessage budget n history) + n ≤ budget ∨
      trimHistoryForNewMessage budget n history = [] := by
  obtain ⟨k, _, he, _, hfit⟩ := trim_least budget n hn history hr
  rw [he]
  rcases hfit with h | h
  · right; simp [h]
  · left; exact h

theorem trim_bounded_cost_witness :
    (0 : Int) ≤ 2 ∧
    historyCost [⟨"user", "a b c"⟩, ⟨"assistant", "d e"⟩, ⟨"user", "f"⟩] + 2 ≤ maxInt ∧
    (historyCost (trimHistoryForNewMessage 4 2
        [⟨"user", "a b c"⟩, ⟨"assistant", "d e"⟩, ⟨"user", "f"⟩]) + 2 ≤ 4 ∨
      trimHistoryForNewMessage 4 2
        [⟨"user", "a b c"⟩, ⟨"assistant", "d e"⟩, ⟨"user", "f"⟩] = []) :=
  ⟨by decide, by decide,
    trim_bounded_cost 4 2 [⟨"user", "a b c"⟩, ⟨"assistant", "d e"⟩, ⟨"user", "f"⟩]
      (by decide) (by decide)⟩

/-- C2. Oldest-first eviction: for every budget, history and new-message cost, the
history left by `trimHistoryForNewMessage` is the history with its first `k` messages
dropped, for some `k ≤ length`; the evicted messages are the first `k`, the survivors
keep their order, and when anything is evicted the head of the history is evicted and
the survivors are a suffix of the tail. -/
theorem trim_evicts_oldest_first (budget n : Int) (history : List Message) :
    ∃ k, k ≤ history.length ∧
      trimHistoryForNewMessage budget n history = history.drop k ∧
      history = history.take k ++ trimHistoryForNewMessage budget n history ∧
      (trimHistoryForNewMessage budget n history ≠ history →
        ∃ head tail, history = head :: tail ∧
          trimHistoryForNewMessage budget n history <:+ tail) := by
  have key : ∃ k, k ≤ history.length ∧
      trimHistoryForNewMessage budget n history = history.drop k := by
    unfold trimHistoryForNewMessage
    by_cases hc : wrapInt (sumTokens 0 history + n) > budget
    · simp only [if_pos hc]
      exact trimLoop_eq_drop budget n history _
    · simp only [if_neg hc]
      exact ⟨0, by simp, by simp⟩
  obtain ⟨k, hk, he⟩ := key
  refine ⟨k, hk, he, ?_, ?_⟩
  · rw [he, List.take_append_drop]
  · intro hne
    rw [he] at hne ⊢
    cases history with
    | nil => simp at hne
    | cons head tail =>
      refine ⟨head, tail, rfl, ?_⟩
      cases k with
      | zero => simp at hne
      | succ j => simpa using List.drop_suffix j tail

theorem trim_evicts_oldest_first_witness :
    ∃ k, k ≤ [(⟨"user", "a b c"⟩ : Message), ⟨"assistant", "d e"⟩, ⟨"user", "f"⟩].length ∧
      trimHistoryForNewMessage 4 2
          [⟨"user", "a b c"⟩, ⟨"assistant", "d e"⟩, ⟨"user", "f"⟩]
        = [(⟨"user", "a b c"⟩ : Message), ⟨"assistant", "d e"⟩, ⟨"user", "f"⟩].drop k ∧
      [(⟨"user", "a b c"⟩ : Message), ⟨"assistant", "d e"⟩, ⟨"user", "f"⟩]
        = [(⟨"user", "a b c"⟩ : Message), ⟨"assistant", "d e"⟩, ⟨"user", "f"⟩].take k ++
          trimHistoryForNewMessage 4 2
            [⟨"user", "a b c"⟩, ⟨"assistant", "d e"⟩, ⟨"user", "f"⟩] ∧
      (trimHistoryForNewMessage 4 2
          [⟨"user", "a b c"⟩, ⟨"assistant", "d e"⟩, ⟨"user", "f"⟩]
          ≠ [⟨"user", "a b c"⟩, ⟨"assistant", "d e"⟩, ⟨"user", "f"⟩] →
        ∃ head tail,
          [(⟨"user", "a b c"⟩ : Message), ⟨"assistant", "d e"⟩, ⟨"user", "f"⟩]
            = head :: tail ∧
          trimHistoryForNewMessage 4 2
            [⟨"user", "a b c"⟩, ⟨"assistant", "d e"⟩, ⟨"user", "f"⟩] <:+ tail) :=
  trim_evicts_oldest_first 4 2 [⟨"user", "a b c"⟩, ⟨"assistant", "d e"⟩, ⟨"user", "f"⟩]

/-- C3. Minimal eviction: for every budget, history and new-message cost `n ≥ 0`
(the total being a Go `int`), `trimHistoryForNewMessage` drops exactly the first `k`
messages, where `k` is the least number with `cost (drop k) + n ≤ budget`, and
`k = length` when there is none; when `cost + n ≤ budget`, equality included, the
history is unchanged. At budget 10: the 10-word prompt on the empty history evicts
nothing, then the prompt "k" evicts that message and the history after the append is
the single message "k", of cost 1. -/
theorem trim_minimal_eviction (budget n : Int) (history : List Message)
    (hn : 0 ≤ n) (hr : historyCost history + n ≤ maxInt) :
    (∃ k, k ≤ history.length ∧
      trimHistoryForNewMessage budget n history = history.drop k ∧
      (∀ j, j < k → budget < historyCost (history.drop j) + n) ∧
      (k = history.length ∨ historyCost (history.drop k) + n ≤ budget)) ∧
    (historyCost history + n ≤ budget →
      trimHistoryForNewMessage budget n history = history) ∧
    (countTokens "a b c d e f g h i j" = 10 ∧
      trimHistoryForNewMessage 10 (countTokens "a b c d e f g h i j") [] = [] ∧
      promptStep 10 ⟨"a b c d e f g h i j", ""⟩ [] = [⟨"user", "a b c d e f g h i j"⟩] ∧
      countTokens "k" = 1 ∧
      trimHistoryForNewMessage 10 (countTokens "k") [⟨"user", "a b c d e f g h i j"⟩] = [] ∧
      promptStep 10 ⟨"k", ""⟩ [⟨"user", "a b c d e f g h i j"⟩] = [⟨"user", "k"⟩] ∧
      historyCost [⟨"user", "k"⟩] = 1) := by
  refine ⟨trim_least budget n hn history hr, ?_, by decide⟩
  intro hfit
  obtain ⟨k, _, he, hlt, _⟩ := trim_least budget n hn history hr
  cases k with
  | zero => simpa using he
  | succ j =>
    have := hlt 0 (by omega)
    simp only [List.drop_zero] at this
    omega

theorem trim_minimal_eviction_witness :
    (0 : Int) ≤ 3 ∧
    historyCost [⟨"user", "a b"⟩, ⟨"assistant", "c d e"⟩, ⟨"user", "f g"⟩] + 3 ≤ maxInt ∧
    trimHistoryForNewMessage 6 3
        [⟨"user", "a b"⟩, ⟨"assistant", "c d e"⟩, ⟨"user", "f g"⟩]
      = [⟨"user", "f g"⟩] ∧
    ∃ k, k ≤ [(⟨"user", "a b"⟩ : Message), ⟨"assistant", "c d e"⟩, ⟨"user", "f g"⟩].length ∧
      trimHistoryForNewMessage 6 3
          [⟨"user", "a b"⟩, ⟨"assistant", "c d e"⟩, ⟨"user", "f g"⟩]
        = [(⟨"user", "a b"⟩ : Message), ⟨"assistant", "c d e"⟩, ⟨"user", "f g"⟩].drop k ∧
      (∀ j, j < k → (6 : Int) < historyCost
        ([(⟨"user", "a b"⟩ : Message), ⟨"assistant", "c d e"⟩, ⟨"user", "f g"⟩].drop j) + 3) ∧
      (k = [(⟨"user", "a b"⟩ : Message), ⟨"assistant", "c d e"⟩, ⟨"user", "f g"⟩].length ∨
        historyCost
          ([(⟨"user", "a b"⟩ : Message), ⟨"assistant", "c d e"⟩, ⟨"user", "f g"⟩].drop k) + 3
          ≤ 6) :=
  ⟨by decide, by decide, by decide,
    (trim_minimal_eviction 6 3 [⟨"user", "a b"⟩, ⟨"assistant", "c d e"⟩, ⟨"user", "f g"⟩]
      (by decide) (by decide)).1⟩

/-- C4. No truncation of an oversized message: for every budget and every non-empty
prompt whose cost exceeds the budget, `trimHistoryForNewMessage` empties every history
(the total being a Go `int`), and in a turn whose file step does not fail the history
handed to the completion service is exactly the single message
`{role: "user", content: prompt}`, the prompt being unmodified. -/
theorem oversized_prompt_kept_whole (budget : Int) (prompt : String)
    (hp : prompt ≠ "") (hbig : budget < countTokens prompt) :
    (∀ history : List Message, historyCost history + countTokens prompt ≤ maxInt →
      trimHistoryForNewMessage budget (countTokens prompt) history = []) ∧
    (∀ (getFileContent : String → Except String String)
        (getChatGPTResponse : List Message → Except String String)
        (fileID : String) (history afterFile : List Message),
      fileStep getFileContent ⟨prompt, fileID⟩ history = .ok afterFile →
      historyCost afterFile + countTokens prompt ≤ maxInt →
      (chatHandler budget getFileContent getChatGPTResponse
          (.ok ⟨prompt, fileID⟩) history).dispatched
        = some [⟨"user", prompt⟩]) := by
  have hall : ∀ history : List Message, historyCost history + countTokens prompt ≤ maxInt →
      trimHistoryForNewMessage budget (countTokens prompt) history = [] := by
    intro history hr
    obtain ⟨k, _, he, _, hfit⟩ :=
      trim_least budget (countTokens prompt) (countTokens_nonneg prompt) history hr
    rcases hfit with h | h
    · rw [he, h]; simp
    · have := historyCost_nonneg (history.drop k)
      omega
  refine ⟨hall, ?_⟩
  intro getFileContent getChatGPTResponse fileID history afterFile hfile hr
  rw [chatHandler_dispatched budget getFileContent getChatGPTResponse _ history afterFile hfile]
  simp only [promptStep, ne_eq, hp, not_false_eq_true, if_true, hall afterFile hr,
    List.nil_append]

theorem oversized_prompt_kept_whole_witness :
    "p q r" ≠ "" ∧ (2 : Int) < countTokens "p q r" ∧
    trimHistoryForNewMessage 2 (countTokens "p q r")
        [⟨"user", "a"⟩, ⟨"assistant", "b"⟩] = [] ∧
    (chatHandler 2 (fun _ => .ok "x y") (fun _ => .ok "fine")
        (.ok ⟨"p q r", "file-1"⟩) [⟨"user", "a"⟩, ⟨"assistant", "b"⟩]).dispatched
      = some [⟨"user", "p q r"⟩] :=
  ⟨by decide, by decide,
    (oversized_prompt_kept_whole 2 "p q r" (by decide) (by decide)).1
      [⟨"user", "a"⟩, ⟨"assistant", "b"⟩] (by decide),
    (oversized_prompt_kept_whole 2 "p q r" (by decide) (by decide)).2
      (fun _ => .ok "x y") (fun _ => .ok "fine") "file-1"
      [⟨"user", "a"⟩, ⟨"assistant", "b"⟩]
      [⟨"user", "a"⟩, ⟨"assistant", "b"⟩, ⟨"user", "x y"⟩] rfl (by decide)⟩

/-- C5. The token estimate is the word count: for every text, `countTokens` is a
total function with a value `≥ 0`; the fields it counts are the white-space delimited
words of the text, and their number is the number of maximal runs of non-white-space
runes; `countTokens "" = 0`, and a text made only of white space has cost 0. -/
theorem countTokens_is_word_count (text : String) :
    0 ≤ countTokens text ∧
    fields text = wordsOf text ∧
    countTokens text = ((wordsOf text).length : Int) ∧
    countTokens text = (maximalRuns text : Int) ∧
    countTokens "" = 0 ∧
    ((∀ r ∈ text.data, isSpace r = true) → countTokens text = 0) := by
  refine ⟨countTokens_nonneg text, fields_eq_wordsOf text, ?_, ?_, by decide, ?_⟩
  · unfold countTokens
    rw [fields_eq_wordsOf]
  · unfold countTokens fields
    rw [(fieldsLoop_length text.data).2, maximalRuns_eq]
  · intro h
    unfold countTokens fields
    rw [fieldsLoop_allSpace text.data h]
    rfl

theorem countTokens_is_word_count_witness :
    countTokens " \t\n " = 0 ∧
    fields "  to be,\tor not  " = ["to".data, "be,".data, "or".data, "not".data] ∧
    countTokens "  to be,\tor not  " = (maximalRuns "  to be,\tor not  " : Int) ∧
    maximalRuns "  to be,\tor not  " = 4 :=
  ⟨(countTokens_is_word_count " \t\n ").2.2.2.2.2 (by decide), by decide,
    (countTokens_is_word_count "  to be,\tor not  ").2.2.2.1, by decide⟩

/-- C6. Turn atomicity on completion failure: for every budget, starting history and
request, if `getChatGPTResponse` is called and returns an error, the turn answers
status 500 with that error, appends no assistant message, and leaves the history equal
to the dispatched history, which is the starting history after the file step and the
prompt step (no rollback). -/
theorem completion_failure_keeps_dispatched (budget : Int)
    (getFileContent : String → Except String String)
    (getChatGPTResponse : List Message → Except String String)
    (bound : Except String RequestBody) (history sent : List Message) (err : String)
    (hsent : (chatHandler budget getFileContent getChatGPTResponse bound history).dispatched
      = some sent)
    (herr : getChatGPTResponse sent = .error err) :
    chatHandler budget getFileContent getChatGPTResponse bound history
      = ⟨500, .error err, some sent, sent⟩ ∧
    ∃ requestBody afterFile, bound = .ok requestBody ∧
      fileStep getFileContent requestBody history = .ok afterFile ∧
      sent = promptStep budget requestBody afterFile := by
  cases bound with
  | error e => simp [chatHandler] at hsent
  | ok requestBody =>
    cases hfile : fileStep getFileContent requestBody history with
    | error e => simp [chatHandler, hfile] at hsent
    | ok afterFile =>
      have hd := chatHandler_dispatched budget getFileContent getChatGPTResponse
        requestBody history afterFile hfile
      rw [hd] at hsent
      have hs : promptStep budget requestBody afterFile = sent := Option.some.inj hsent
      refine ⟨?_, requestBody, afterFile, rfl, hfile, hs.symm⟩
      simp only [chatHandler, hfile, hs, herr]

theorem completion_failure_keeps_dispatched_witness :
    chatHandler 3 (fun _ => .ok "x y") (fun _ => .error "status 503")
        (.ok ⟨"k", "file-1"⟩) [⟨"user", "a b"⟩, ⟨"assistant", "c"⟩]
      = ⟨500, .error "status 503", some [⟨"user", "x y"⟩, ⟨"user", "k"⟩],
          [⟨"user", "x y"⟩, ⟨"user", "k"⟩]⟩ :=
  (completion_failure_keeps_dispatched 3 (fun _ => .ok "x y") (fun _ => .error "status 503")
    (.ok ⟨"k", "file-1"⟩) [⟨"user", "a b"⟩, ⟨"assistant", "c"⟩]
    [⟨"user", "x y"⟩, ⟨"user", "k"⟩] "status 503" (by decide) rfl).1

/-- C7. Successful turn: for every budget, starting history and request whose file
step and completion call succeed, the completion service receives the history after
file ingestion, trimming and prompt append, in order; the history after the turn is
that dispatched history followed by `{role: "assistant", content: reply}`, and the
caller receives status 200 with the same reply. -/
theorem successful_turn_appends_reply (budget : Int)
    (getFileContent : String → Except String String)
    (getChatGPTResponse : List Message → Except String String)
    (requestBody : RequestBody) (history afterFile : List Message) (reply : String)
    (hfile : fileStep getFileContent requestBody history = .ok afterFile)
    (hok : getChatGPTResponse (promptStep budget requestBody afterFile) = .ok reply) :
    chatHandler budget getFileContent getChatGPTResponse (.ok requestBody) history
      = ⟨200, .response reply, some (promptStep budget requestBody afterFile),
          promptStep budget requestBody afterFile ++ [⟨"assistant", reply⟩]⟩ ∧
    ((requestBody.FileID = "" ∧ afterFile = history) ∨
      (requestBody.FileID ≠ "" ∧ ∃ fileContent,
        getFileContent requestBody.FileID = .ok fileContent ∧
        afterFile = history ++ [⟨"user", fileContent⟩])) ∧
    ((requestBody.Prompt = "" ∧ promptStep budget requestBody afterFile = afterFile) ∨
      (requestBody.Prompt ≠ "" ∧ promptStep budget requestBody afterFile
        = trimHistoryForNewMessage budget (countTokens requestBody.Prompt) afterFile
          ++ [⟨"user", requestBody.Prompt⟩])) := by
  refine ⟨?_, fileStep_ok_cases getFileContent requestBody history afterFile hfile, ?_⟩
  · simp only [chatHandler, hfile, hok]
  · by_cases hp : requestBody.Prompt = ""
    · left; exact ⟨hp, by simp [promptStep, hp]⟩
    · right; exact ⟨hp, by simp [promptStep, hp]⟩

theorem successful_turn_appends_reply_witness :
    chatHandler 5 (fun _ => .ok "x y") (fun _ => .ok "hello there")
        (.ok ⟨"k l", "file-1"⟩) [⟨"user", "a b"⟩, ⟨"assistant", "c"⟩]
      = ⟨200, .response "hello there",
          some [⟨"assistant", "c"⟩, ⟨"user", "x y"⟩, ⟨"user", "k l"⟩],
          [⟨"assistant", "c"⟩, ⟨"user", "x y"⟩, ⟨"user", "k l"⟩,
            ⟨"assistant", "hello there"⟩]⟩ :=
  (successful_turn_appends_reply 5 (fun _ => .ok "x y") (fun _ => .ok "hello there")
    ⟨"k l", "file-1"⟩ [⟨"user", "a b"⟩, ⟨"assistant", "c"⟩]
    [⟨"user", "a b"⟩, ⟨"assistant", "c"⟩, ⟨"user", "x y"⟩] "hello there"
    rfl rfl).1

/-- C8. A file-fetch failure is propagated with the history untouched: for every
budget, starting history and request with a non-empty file reference, if
`getFileContent` returns an error, the turn answers status 500 with that error, the
completion service is not called, and the history after the turn is the starting
history (no prompt appended, nothing evicted). -/
theorem file_failure_leaves_history (budget : Int)
    (getFileContent : String → Except String String)
    (getChatGPTResponse : List Message → Except String String)
    (requestBody : RequestBody) (history : List Message) (err : String)
    (hid : requestBody.FileID ≠ "")
    (hfail : getFileContent requestBody.FileID = .error err) :
    chatHandler budget getFileContent getChatGPTResponse (.ok requestBody) history
      = ⟨500, .error err, none, history⟩ := by
  have hfile : fileStep getFileContent requestBody history = .error err := by
    simp only [fileStep, ne_eq, hid, not_false_eq_true, if_true, hfail]
  simp only [chatHandler, hfile]

theorem file_failure_leaves_history_witness :
    (⟨"a b c d e f", "file-9"⟩ : RequestBody).FileID ≠ "" ∧
    chatHandler 3 (fun _ => .error "unexpected status code: 404") (fun _ => .ok "fine")
        (.ok ⟨"a b c d e f", "file-9"⟩) [⟨"user", "a b"⟩, ⟨"assistant", "c"⟩]
      = ⟨500, .error "unexpected status code: 404", none,
          [⟨"user", "a b"⟩, ⟨"assistant", "c"⟩]⟩ :=
  ⟨by decide,
    file_failure_leaves_history 3 (fun _ => .error "unexpected status code: 404")
      (fun _ => .ok "fine") ⟨"a b c d e f", "file-9"⟩
      [⟨"user", "a b"⟩, ⟨"assistant", "c"⟩] "unexpected status code: 404" (by decide) rfl⟩

/-- C9. File ingestion applies no budget check: for every budget, starting history
and request with a non-empty file reference whose fetch succeeds with content `c`, the
file step appends `{role: "user", content: c}` at the tail and evicts nothing; when the
request has no prompt the dispatched history is the starting history followed by that
message, whatever its cost; and at `maxTokens` there are a history and a content whose
dispatched cost exceeds `maxTokens`. -/
theorem file_ingestion_unchecked (budget : Int)
    (getFileContent : String → Except String String)
    (getChatGPTResponse : List Message → Except String String)
    (requestBody : RequestBody) (history : List Message) (c : String)
    (hid : requestBody.FileID ≠ "")
    (hok : getFileContent requestBody.FileID = .ok c) :
    fileStep getFileContent requestBody history = .ok (history ++ [⟨"user", c⟩]) ∧
    (requestBody.Prompt = "" →
      (chatHandler budget getFileContent getChatGPTResponse (.ok requestBody) history).dispatched
        = some (history ++ [⟨"user", c⟩])) ∧
    (∃ (big : List Message) (content : String),
      maxTokens < historyCost (big ++ [⟨"user", content⟩]) ∧
      (chatHandler maxTokens (fun _ => .ok content) getChatGPTResponse
          (.ok ⟨"", requestBody.FileID⟩) big).dispatched
        = some (big ++ [⟨"user", content⟩])) := by
  refine ⟨fileStep_fetched getFileContent requestBody history c hid hok,
    chatHandler_file_only budget getFileContent getChatGPTResponse requestBody history c
      hid hok, ?_⟩
  refine ⟨List.replicate 128000 ⟨"assistant", "a"⟩, "b", ?_, ?_⟩
  · rw [historyCost_replicate_append]
    unfold maxTokens
    norm_num
  · exact chatHandler_file_only maxTokens (fun _ => .ok "b") getChatGPTResponse
      ⟨"", requestBody.FileID⟩ _ "b" hid rfl rfl

theorem file_ingestion_unchecked_witness :
    (⟨"", "file-1"⟩ : RequestBody).FileID ≠ "" ∧
    fileStep (fun _ => .ok "x y z w") ⟨"", "file-1"⟩ [⟨"user", "a b"⟩, ⟨"assistant", "c"⟩]
      = .ok [⟨"user", "a b"⟩, ⟨"assistant", "c"⟩, ⟨"user", "x y z w"⟩] ∧
    (chatHandler 3 (fun _ => .ok "x y z w") (fun _ => .ok "fine")
        (.ok ⟨"", "file-1"⟩) [⟨"user", "a b"⟩, ⟨"assistant", "c"⟩]).dispatched
      = some [⟨"user", "a b"⟩, ⟨"assistant", "c"⟩, ⟨"user", "x y z w"⟩] ∧
    (3 : Int) < historyCost [⟨"user", "a b"⟩, ⟨"assistant", "c"⟩, ⟨"user", "x y z w"⟩] :=
  ⟨by decide,
    (file_ingestion_unchecked 3 (fun _ => .ok "x y z w") (fun _ => .ok "fine")
      ⟨"", "file-1"⟩ [⟨"user", "a b"⟩, ⟨"assistant", "c"⟩] "x y z w" (by decide) rfl).1,
    (file_ingestion_unchecked 3 (fun _ => .ok "x y z w") (fun _ => .ok "fine")
      ⟨"", "file-1"⟩ [⟨"user", "a b"⟩, ⟨"assistant", "c"⟩] "x y z w" (by decide) rfl).2.1 rfl,
    by decide⟩

/-- C10. The dispatched context is within budget whenever a fitting prompt is
supplied: for every budget, starting history, file step that does not fail, and
non-empty prompt of cost at most the budget (the total being a Go `int`), the history
handed to the completion service has cost at most the budget and its last message is
`{role: "user", content: prompt}`; the trimming runs on the history that already holds
the file content of the same turn. -/
theorem dispatched_within_budget (budget : Int)
    (getFileContent : String → Except String String)
    (getChatGPTResponse : List Message → Except String String)
    (requestBody : RequestBody) (history afterFile : List Message)
    (hfile : fileStep getFileContent requestBody history = .ok afterFile)
    (hp : requestBody.Prompt ≠ "")
    (hfit : countTokens requestBody.Prompt ≤ budget)
    (hr : historyCost afterFile + countTokens requestBody.Prompt ≤ maxInt) :
    ∃ sent,
      (chatHandler budget getFileContent getChatGPTResponse (.ok requestBody) history).dispatched
        = some sent ∧
      sent = trimHistoryForNewMessage budget (countTokens requestBody.Prompt) afterFile
        ++ [⟨"user", requestBody.Prompt⟩] ∧
      historyCost sent ≤ budget ∧
      sent.getLast? = some ⟨"user", requestBody.Prompt⟩ := by
  refine ⟨_, chatHandler_dispatched budget getFileContent getChatGPTResponse requestBody
    history afterFile hfile, ?_, ?_, ?_⟩
  · simp only [promptStep, ne_eq, hp, not_false_eq_true, if_true]
  · simp only [promptStep, ne_eq, hp, not_false_eq_true, if_true]
    rw [historyCost_append, historyCost_cons, historyCost_nil]
    simp only []
    rcases trim_bounded_cost budget (countTokens requestBody.Prompt) afterFile
      (countTokens_nonneg _) hr with h | h
    · omega
    · rw [h, historyCost_nil]; omega
  · simp only [promptStep, ne_eq, hp, not_false_eq_true, if_true]
    simp

theorem dispatched_within_budget_witness :
    (⟨"k l", "file-1"⟩ : RequestBody).Prompt ≠ "" ∧
    countTokens (⟨"k l", "file-1"⟩ : RequestBody).Prompt ≤ 4 ∧
    ∃ sent,
      (chatHandler 4 (fun _ => .ok "x y z") (fun _ => .ok "fine")
          (.ok ⟨"k l", "file-1"⟩) [⟨"user", "a b"⟩, ⟨"assistant", "c"⟩]).dispatched
        = some sent ∧
      sent = trimHistoryForNewMessage 4 (countTokens (⟨"k l", "file-1"⟩ : RequestBody).Prompt)
          [⟨"user", "a b"⟩, ⟨"assistant", "c"⟩, ⟨"user", "x y z"⟩]
        ++ [⟨"user", (⟨"k l", "file-1"⟩ : RequestBody).Prompt⟩] ∧
      historyCost sent ≤ 4 ∧
      sent.getLast? = some ⟨"user", (⟨"k l", "file-1"⟩ : RequestBody).Prompt⟩ :=
  ⟨by decide, by decide,
    dispatched_within_budget 4 (fun _ => .ok "x y z") (fun _ => .ok "fine")
      ⟨"k l", "file-1"⟩ [⟨"user", "a b"⟩, ⟨"assistant", "c"⟩]
      [⟨"user", "a b"⟩, ⟨"assistant", "c"⟩, ⟨"user", "x y z"⟩] rfl
      (by decide) (by decide) (by decide)⟩

end ChatHistory
